import Mathlib

/-!
Formal model of the bc3-parser repository (src/src/main/python/parser.py).

Conventions of the embedding:
* Python floats are modelled as exact rationals (`Rat`); none of the
  verified properties depends on IEEE rounding.
* Python dicts are modelled as association lists with first-match lookup
  (`dictGet?`) and an insertion-order-preserving update (`dictSet`).
* The recursive tree builder `build_node` threads one mutable visited set
  through every call; here the set is an explicit `List String` threaded
  through the computation, and the recursion is driven by a fuel counter
  whose adequacy is proved separately.
-/

namespace BC3

/-- Python dict lookup d.get(k): the first entry carrying the key. -/
def dictGet? {α : Type} (m : List (String × α)) (k : String) : Option α :=
  (m.find? (fun p => p.1 == k)).map (fun p => p.2)

/-- Python dict assignment d[k] = v: replaces the value in place when the key
exists (keeping its original position), otherwise appends a new binding. -/
def dictSet {α : Type} (m : List (String × α)) (k : String) (v : α) : List (String × α) :=
  if m.any (fun p => p.1 == k) then
    m.map (fun p => if p.1 == k then (k, v) else p)
  else m ++ [(k, v)]

/-- Python str.split with a one-character separator, applied through the
character list of the string: every occurrence splits, empty segments are
kept, and splitting the empty string yields one empty segment. -/
def splitChar (sep : Char) (s : String) : List String :=
  (s.toList.splitOn sep).map (fun l => String.mk l)

/-- Python str.startswith. -/
def pyStartsWith (pre s : String) : Bool :=
  pre.toList.isPrefixOf s.toList

/-- Value of a list of decimal digit characters. -/
def digitsToNat (l : List Char) : Nat :=
  l.foldl (fun a c => 10 * a + (c.toNat - 48)) 0

/-- Model of the Python float builtin on the string shapes this development
exercises: an optional minus sign, then decimal digits with at most one
decimal point; anything else raises ValueError, i.e. returns none. -/
def parseFloat? (s : String) : Option Rat :=
  let withSign : List Char → Option Rat := fun chars =>
    match chars.splitOn '.' with
    | [intPart] =>
      if intPart ≠ [] ∧ intPart.all Char.isDigit then
        some ((digitsToNat intPart : Nat) : Rat)
      else none
    | [intPart, fracPart] =>
      if intPart ++ fracPart ≠ [] ∧ (intPart ++ fracPart).all Char.isDigit then
        some (mkRat (digitsToNat (intPart ++ fracPart)) (10 ^ fracPart.length))
      else none
    | _ => none
  match s.toList with
  | '-' :: rest => (withSign rest).map (fun q => -q)
  | chars => withSign chars

/-- Key extraction from a measurement record header, parser.py line 176-178:
split the header on the backslash, keep the last segment when it is truthy,
otherwise the second-to-last when there are at least two segments, otherwise
the whole header. -/
def measurementKey (header : String) : String :=
  let parts := splitChar '\\' header
  if parts.getLastD ("") ≠ "" then parts.getLastD ("")
  else if parts.length > 1 then parts.getD (parts.length - 2) ("")
  else header

/-- parse_measurements, parser.py lines 157-187: fold over the records,
keeping the tilde-M ones with at least three pipe-separated fields, and
accumulate each parsed total under the key extracted from the header.
Records whose total does not parse are skipped. -/
def parse_measurements (records : List String) : List (String × Rat) :=
  records.foldl
    (fun quantities r =>
      if ¬ pyStartsWith ("~M|") r then quantities
      else
        let fields := splitChar '|' r
        if fields.length < 3 then quantities
        else
          let header := fields.getD 1 ("")
          let total_str := fields.getLastD ("")
          let code := measurementKey header
          match parseFloat? total_str with
          | none => quantities
          | some total =>
            dictSet quantities code ((dictGet? quantities code).getD 0 + total))
    []

/-- A concept record as produced by parse_concepts (parser.py lines 43-76). -/
structure Concept where
  codigo : String
  unidad : Option String
  resumen : String
  precio : Rat
deriving Repr, DecidableEq

/-- The four lookup structures consumed by build_node. -/
structure Ctx where
  decomp : List (String × List (String × Rat))
  concepts : List (String × Concept)
  texts : List (String × String)
  quantities : List (String × Rat)

/-- Scalar fields of an output tree node, exactly the keys built by
build_node (parser.py lines 285-300) except the child list. -/
structure NodeData where
  codigo_decimal : String
  codigo : String
  naturaleza : Nat
  unidad : Option String
  resumen : String
  descripcion_larga : Option String
  cantidad : Rat
  precio : Rat
  margen : Option Rat
  importe : Rat
  interno : Bool
  grupo : Option String
  proveedor : Option String
deriving Repr, DecidableEq

/-- An output tree node: scalar fields plus the ordered child list. -/
inductive Node : Type where
  | mk (data : NodeData) (hijos : List Node) : Node

def Node.data : Node → NodeData
  | .mk d _ => d

def Node.hijos : Node → List Node
  | .mk _ h => h

def Node.codigo (n : Node) : String := n.data.codigo

def Node.codigo_decimal (n : Node) : String := n.data.codigo_decimal

def Node.cantidad (n : Node) : Rat := n.data.cantidad

def Node.naturaleza (n : Node) : Nat := n.data.naturaleza

/-- determine_naturaleza, parser.py lines 194-208. -/
def determine_naturaleza (depth : Nat) (has_children : Bool) : Nat :=
  if depth = 0 then 0
  else if ¬ has_children then 3
  else if depth = 1 then 1
  else 2

/-- Python format string 02d applied to a sibling index: zero-pad to a
minimum width of two. -/
def format02 (idx : Nat) : String :=
  if idx < 10 then ("0") ++ toString idx else toString idx

/-- The quantity computed by build_node (parser.py lines 246-257). -/
def builtCantidad (ctx : Ctx) (code : String) (depth : Nat) : Rat :=
  if depth = 0 then 1
  else if depth = 1 then 1
  else if 2 ≤ depth ∧ (dictGet? ctx.decomp code).getD [] ≠ [] then 1
  else (dictGet? ctx.quantities code).getD 0

/-- The scalar fields assembled by build_node (parser.py lines 232-259 and
283-300); hijosEmpty records whether the recursively built child list came
out empty, which feeds the naturaleza classification. -/
def builtData (ctx : Ctx) (code : String) (depth : Nat) (codigo_decimal : String)
    (hijosEmpty : Bool) : NodeData :=
  { codigo_decimal := codigo_decimal
    codigo := code
    naturaleza := determine_naturaleza depth
      (!hijosEmpty || !((dictGet? ctx.decomp code).getD []).isEmpty)
    unidad := (dictGet? ctx.concepts code).bind (fun c => c.unidad)
    resumen := ((dictGet? ctx.concepts code).map (fun c => c.resumen)).getD ("")
    descripcion_larga := dictGet? ctx.texts code
    cantidad := builtCantidad ctx code depth
    precio := ((dictGet? ctx.concepts code).map (fun c => c.precio)).getD 0
    margen := none
    importe := builtCantidad ctx code depth
      * (((dictGet? ctx.concepts code).map (fun c => c.precio)).getD 0)
    interno := true
    grupo := none
    proveedor := none }

/-- The child-building loop of build_node (parser.py lines 262-281): walks
the decomposition entry in order, recursing through the supplied builder,
threading the visited list, and dropping children that return no node. -/
def buildChildrenGo
    (bn : String → Nat → String → List String → Option (Option Node × List String)) :
    List (String × Rat) → Nat → String → Nat → List String →
      Option (List Node × List String)
  | [], _, _, _, visited => some ([], visited)
  | (child_code, _factor) :: rest, depth, codigo_decimal, idx, visited =>
    match bn child_code (depth + 1)
        (if depth = 0 then format02 idx else codigo_decimal ++ "." ++ format02 idx) visited with
    | none => none
    | some (child_node, v1) =>
      match buildChildrenGo bn rest depth codigo_decimal (idx + 1) v1 with
      | none => none
      | some (others, v2) =>
        some ((match child_node with | some nd => nd :: others | none => others), v2)

/-- build_node, parser.py lines 211-302, driven by a fuel counter: a visited
code yields no node (the cycle guard, lines 227-230); otherwise the code is
added to the single visited list threaded through all recursive calls, the
children are built from the decomposition entry, and the node is assembled.
The outer none means the fuel ran out; fuel adequacy is proved below. -/
def buildNodeF (ctx : Ctx) :
    Nat → String → Nat → String → List String → Option (Option Node × List String)
  | 0, _, _, _, _ => none
  | (fuel + 1), code, depth, codigo_decimal, visited =>
    if code ∈ visited then some (none, visited)
    else
      match buildChildrenGo (buildNodeF ctx fuel) ((dictGet? ctx.decomp code).getD [])
          depth codigo_decimal 1 (code :: visited) with
      | none => none
      | some (hijos, visited2) =>
        some (some (Node.mk (builtData ctx code depth codigo_decimal hijos.isEmpty) hijos),
          visited2)

/-- Every code that occurs as a child in some decomposition entry; the
builder only ever recurses into these codes. -/
def decompUniv (decomp : List (String × List (String × Rat))) : Finset String :=
  (decomp.flatMap (fun p => p.2.map (fun q => q.1))).toFinset

/-- The root candidates of detect_root_code (parser.py lines 305-323):
parent keys that never occur as a child, as a duplicate-free list.  Python
iterates a set here; the arbitrary set iteration order is realized as the
order of this list. -/
def rootCandidates (decomp : List (String × List (String × Rat))) : List String :=
  ((decomp.map (fun p => p.1)).dedup).filter
    (fun p => ¬ p ∈ decomp.flatMap (fun q => q.2.map (fun r => r.1)))

/-- detect_root_code, parser.py lines 305-323: error when no candidate
remains, otherwise an arbitrary candidate (the single one when unique). -/
def detect_root_code (decomp : List (String × List (String × Rat))) : Except String String :=
  match rootCandidates decomp with
  | [] => Except.error ("No se ha encontrado ningún nodo raíz en las descomposiciones (~D).")
  | r :: _ => Except.ok r

/-- The parent-keys-minus-child-codes set of the Root Resolver contract. -/
def rootFinset (decomp : List (String × List (String × Rat))) : Finset String :=
  (decomp.map (fun p => p.1)).toFinset \ (decomp.flatMap (fun p => p.2.map (fun q => q.1))).toFinset

mutual
/-- The helper _prune_node, parser.py lines 330-358: returns whether the
subtree carries a nonzero quantity anywhere, together with the node with its
child list filtered to the surviving branches. -/
def pruneNode : Node → Bool × Node
  | .mk d hijos =>
    let r := pruneChildren hijos
    (decide (d.cantidad ≠ 0) || r.2, Node.mk d r.1)

/-- The child loop of _prune_node: the kept (recursively pruned) children in
their original relative order, and whether any child subtree has signal. -/
def pruneChildren : List Node → List Node × Bool
  | [] => ([], false)
  | h :: t =>
    let rh := pruneNode h
    let rt := pruneChildren t
    (if rh.1 then rh.2 :: rt.1 else rt.1, rh.1 || rt.2)
end

/-- prune_tree, parser.py lines 361-376: filter the root children through
_prune_node; the root node itself is always kept. -/
def prune_tree : Node → Node
  | .mk d hijos => Node.mk d (pruneChildren hijos).1

mutual
/-- A node with its freshly assigned position code, its children renumbered
below that code; depth is the depth of this node itself. -/
def renumberNode : Node → String → Nat → Node
  | .mk hd hh, cd, depth =>
    Node.mk { hd with codigo_decimal := cd } (renumberList cd depth 1 hh)

/-- The loop of _renumber_children, parser.py lines 383-401, functionally:
each node of the list receives the position code built from the parent
position code, the parent depth and its one-based index, and its own
children are renumbered below the fresh code at depth + 1. -/
def renumberList : String → Nat → Nat → List Node → List Node
  | _, _, _, [] => []
  | parent_cd, depth, idx, h :: t =>
    renumberNode h (if depth = 0 then format02 idx else parent_cd ++ "." ++ format02 idx)
        (depth + 1)
      :: renumberList parent_cd depth (idx + 1) t
end

/-- renumber_tree, parser.py lines 404-410: fix the root position code to
the literal token 0 and renumber the children from depth 0. -/
def renumber_tree (root : Node) : Node :=
  renumberNode root ("0") 0

mutual
/-- All nodes of a tree paired with their depth, the root at the given depth. -/
def nodesWithDepth : Node → Nat → List (Node × Nat)
  | .mk d hijos, k => (Node.mk d hijos, k) :: nodesWithDepthList hijos (k + 1)

/-- All nodes of a forest paired with their depth, in preorder. -/
def nodesWithDepthList : List Node → Nat → List (Node × Nat)
  | [], _ => []
  | h :: t, k => nodesWithDepth h k ++ nodesWithDepthList t k
end

mutual
/-- The concept codes of a tree in preorder. -/
def treeCodes : Node → List String
  | .mk d hijos => d.codigo :: treeCodesList hijos

/-- The concept codes of a forest in preorder. -/
def treeCodesList : List Node → List String
  | [] => []
  | h :: t => treeCodes h ++ treeCodesList t
end

mutual
/-- Whether some node of the tree has a nonzero quantity. -/
def subtreeHasSignal : Node → Bool
  | .mk d hijos => decide (d.cantidad ≠ 0) || subtreeHasSignalList hijos

/-- Whether some node of the forest has a nonzero quantity. -/
def subtreeHasSignalList : List Node → Bool
  | [] => false
  | h :: t => subtreeHasSignal h || subtreeHasSignalList t
end

mutual
/-- A tree satisfies the pruning invariant when every node in it, the root
included, carries a nonzero quantity in itself or in some descendant. -/
def prunedInvariant : Node → Bool
  | .mk d hijos =>
    subtreeHasSignal (Node.mk d hijos) && prunedInvariantList hijos

/-- The pruning invariant over a forest. -/
def prunedInvariantList : List Node → Bool
  | [] => true
  | h :: t => prunedInvariant h && prunedInvariantList t
end

mutual
/-- Position-code discipline below one node: its children obey the claimed
rule with this node as parent. -/
def posOkNode : Node → Bool
  | .mk d hijos => posOkList false d.codigo_decimal 1 hijos

/-- The position-code discipline claimed for the renumbered tree: each child
at one-based index idx of a root-depth node carries the bare two-digit code,
each deeper child carries its parent position code, a dot and the two-digit
index. -/
def posOkList : Bool → String → Nat → List Node → Bool
  | _, _, _, [] => true
  | isRoot, parent_cd, idx, h :: t =>
    (h.codigo_decimal == (if isRoot then format02 idx else parent_cd ++ "." ++ format02 idx))
      && posOkNode h && posOkList isRoot parent_cd (idx + 1) t
end

/-- Position-code discipline of a whole tree, the root carrying the literal
token 0. -/
def positionCodesOk (root : Node) : Bool :=
  (root.codigo_decimal == "0") && posOkList true root.codigo_decimal 1 root.hijos

/-- The quantity priority rule exactly as the specification words it:
depth 0 and depth 1 give one, depth at least two with a nonempty
decomposition entry gives one, otherwise the measurement total when
present, else zero. -/
def quantityRule (depth : Nat) (children_info : List (String × Rat))
    (measured : Option Rat) : Rat :=
  if depth = 0 then 1
  else if depth = 1 then 1
  else if 2 ≤ depth ∧ children_info ≠ [] then 1
  else measured.getD 0

/-- The last non-empty backslash-separated segment of a header, as the
claim about the measurement decoder words it. -/
def lastNonEmptySegment (header : String) : Option String :=
  ((splitChar '\\' header).filter (fun s => s ≠ "")).getLast?

/-- Codes of an optional build result. -/
def resCodes : Option Node → List String
  | none => []
  | some n => treeCodes n

/-- Per-node consequence of the builder invariant: the quantity follows the
priority rule at the node depth, and the naturaleza is the classification
of the depth and of the emptiness of the decomposition entry of the node
code. -/
def perNodeOk (ctx : Ctx) (p : Node × Nat) : Prop :=
  p.1.cantidad = quantityRule p.2 ((dictGet? ctx.decomp p.1.codigo).getD [])
      (dictGet? ctx.quantities p.1.codigo)
    ∧ p.1.naturaleza = determine_naturaleza p.2
      (!((dictGet? ctx.decomp p.1.codigo).getD []).isEmpty)

/-- Full statement of the builder invariant at a given fuel. -/
def NodeSpecAt (ctx : Ctx) (fuel : Nat) : Prop :=
  ∀ code depth cd visited res v2,
    buildNodeF ctx fuel code depth cd visited = some (res, v2) →
      (res = none ↔ code ∈ visited)
      ∧ (∀ c, c ∈ v2 ↔ c ∈ resCodes res ∨ c ∈ visited)
      ∧ (resCodes res).Nodup
      ∧ (∀ c ∈ resCodes res, c ∉ visited)
      ∧ (∀ n, res = some n → n.codigo = code ∧ n.codigo_decimal = cd
          ∧ ∀ p ∈ nodesWithDepth n depth, perNodeOk ctx p)

/-- The child-loop counterpart of the builder invariant at a given fuel. -/
def ChildSpecAt (ctx : Ctx) (fuel : Nat) : Prop :=
  ∀ cinfo depth cd idx visited hs v2,
    buildChildrenGo (buildNodeF ctx fuel) cinfo depth cd idx visited = some (hs, v2) →
      (∀ c, c ∈ v2 ↔ c ∈ treeCodesList hs ∨ c ∈ visited)
      ∧ (treeCodesList hs).Nodup
      ∧ (∀ c ∈ treeCodesList hs, c ∉ visited)
      ∧ (cinfo = [] → hs = [])
      ∧ (∀ h ∈ hs, ∀ p ∈ nodesWithDepth h (depth + 1), perNodeOk ctx p)

/-- Scalar fields of a node built from empty concept, text and measurement
lookups: only the position code, the concept code, the naturaleza and the
quantity vary. -/
def cexData (cd code : String) (nat : Nat) (q : Rat) : NodeData :=
  { codigo_decimal := cd
    codigo := code
    naturaleza := nat
    unidad := none
    resumen := ""
    descripcion_larga := none
    cantidad := q
    precio := 0
    margen := none
    importe := 0
    interno := true
    grupo := none
    proveedor := none }

/-- A decomposition in which two parents share the child X: the root
decomposes into A and B, and both A and B decompose into X. -/
def cexCtx : Ctx :=
  { decomp := [(("R"), [(("A"), 1), (("B"), 1)]), (("A"), [(("X"), 1)]), (("B"), [(("X"), 1)])]
    concepts := []
    texts := []
    quantities := [] }

/-- The tree the builder produces on cexCtx: X appears under A, the first
parent reached in depth-first order, and under B no node is produced. -/
def cexTree : Node :=
  Node.mk (cexData ("0") ("R") 0 1)
    [Node.mk (cexData ("01") ("A") 1 1) [Node.mk (cexData ("01.01") ("X") 3 0) []],
     Node.mk (cexData ("02") ("B") 1 1) []]

/-- A three-level decomposition with a measured leaf: the root decomposes
into C, C decomposes into I, and I carries measurement total five. -/
def wCtx2 : Ctx :=
  { decomp := [(("R"), [(("C"), 1)]), (("C"), [(("I"), 1)])]
    concepts := []
    texts := []
    quantities := [(("I"), 5)] }

/-- The measured leaf of the tree built on wCtx2. -/
def wLeaf2 : Node := Node.mk (cexData ("01.01") ("I") 3 5) []

/-- The single chapter of the tree built on wCtx2. -/
def wChild2 : Node := Node.mk (cexData ("01") ("C") 1 1) [wLeaf2]

/-- The tree the builder produces on wCtx2. -/
def wTree2 : Node := Node.mk (cexData ("0") ("R") 0 1) [wChild2]

/-- Structural induction over a tree with the child-membership hypothesis. -/
theorem Node.ind {P : Node → Prop}
    (h : ∀ d hijos, (∀ c, c ∈ hijos → P c) → P (Node.mk d hijos)) : ∀ n, P n :=
  fun n =>
    Node.rec (motive_1 := fun m => P m) (motive_2 := fun l => ∀ c, c ∈ l → P c)
      (fun d hijos ih => h d hijos ih)
      (fun c hc => absurd hc (List.not_mem_nil c))
      (fun hd tl ihh iht => fun c hc => by
        rcases List.mem_cons.mp hc with h1 | h2
        · exact h1 ▸ ihh
        · exact iht c h2)
      n

/-- Structural induction over a forest, descending both into the child list
of the head and into the tail. -/
theorem forestInd {P : List Node → Prop} (h0 : P [])
    (h1 : ∀ d hijos t, P hijos → P t → P (Node.mk d hijos :: t)) : ∀ l, P l
  | [] => h0
  | .mk d hijos :: t => h1 d hijos t (forestInd h0 h1 hijos) (forestInd h0 h1 t)

theorem pruneNode_data (n : Node) : (pruneNode n).2.data = n.data := by
  cases n
  rfl

theorem pruneNode_codigo (n : Node) : (pruneNode n).2.codigo = n.codigo := by
  cases n
  rfl

theorem pruneNode_mk (d : NodeData) (hijos : List Node) :
    pruneNode (Node.mk d hijos)
      = (decide (d.cantidad ≠ 0) || (pruneChildren hijos).2,
         Node.mk d (pruneChildren hijos).1) := rfl

theorem pruneChildren_cons (h : Node) (t : List Node) :
    pruneChildren (h :: t)
      = (if (pruneNode h).1 then (pruneNode h).2 :: (pruneChildren t).1
         else (pruneChildren t).1,
         (pruneNode h).1 || (pruneChildren t).2) := rfl

/-- The signal reported by _prune_node is exactly whether the original
subtree contains a nonzero quantity. -/
theorem pruneChildren_signal :
    ∀ l : List Node, (pruneChildren l).2 = subtreeHasSignalList l := by
  refine forestInd rfl ?_
  intro d hijos t ih it
  rw [pruneChildren_cons, pruneNode_mk]
  simp only [subtreeHasSignalList, subtreeHasSignal, ih, it]

theorem pruneNode_signal (n : Node) : (pruneNode n).1 = subtreeHasSignal n := by
  cases n with
  | mk d hijos =>
    rw [pruneNode_mk]
    simp only [subtreeHasSignal, pruneChildren_signal]

/-- Pruning does not change whether a subtree contains a nonzero quantity. -/
theorem prune_preserves_signal :
    ∀ l : List Node, subtreeHasSignalList (pruneChildren l).1 = subtreeHasSignalList l := by
  refine forestInd rfl ?_
  intro d hijos t ih it
  rw [pruneChildren_cons, pruneNode_mk]
  simp only
  by_cases hsig : (decide (d.cantidad ≠ 0) || (pruneChildren hijos).2) = true
  · rw [if_pos hsig]
    simp only [subtreeHasSignalList, subtreeHasSignal, ih, it]
  · rw [if_neg hsig]
    rw [Bool.or_eq_true, not_or] at hsig
    obtain ⟨h1, h2⟩ := hsig
    rw [Bool.not_eq_true] at h1 h2
    rw [pruneChildren_signal] at h2
    simp only [subtreeHasSignalList, subtreeHasSignal, it, h1, h2, Bool.false_or]

/-- Every child kept by the pruning loop satisfies the pruning invariant:
its whole (pruned) subtree consists of nodes with signal below them. -/
theorem pruneChildren_invariant :
    ∀ l : List Node, prunedInvariantList (pruneChildren l).1 = true := by
  refine forestInd rfl ?_
  intro d hijos t ih it
  rw [pruneChildren_cons, pruneNode_mk]
  simp only
  by_cases hsig : (decide (d.cantidad ≠ 0) || (pruneChildren hijos).2) = true
  · rw [if_pos hsig]
    simp only [prunedInvariantList, prunedInvariant, subtreeHasSignal, it, ih,
      prune_preserves_signal, Bool.and_true]
    rw [pruneChildren_signal] at hsig
    exact hsig
  · rw [if_neg hsig]
    exact it

/-- The codes of the children kept by the pruning loop form a sublist of the
original child codes: the relative order of survivors is preserved. -/
theorem pruneChildren_codigo_sublist :
    ∀ l : List Node, ((pruneChildren l).1.map Node.codigo).Sublist (l.map Node.codigo) := by
  intro l
  induction l with
  | nil => exact List.Sublist.refl _
  | cons h t ih =>
    rw [pruneChildren_cons]
    simp only [List.map_cons]
    by_cases hsig : (pruneNode h).1 = true
    · rw [if_pos hsig]
      simp only [List.map_cons, pruneNode_codigo]
      exact List.Sublist.cons₂ _ ih
    · rw [if_neg hsig]
      exact List.Sublist.cons _ ih

/-- Preorder codes of the pruned forest form a sublist of the original
preorder codes. -/
theorem pruneChildren_treeCodes_sublist :
    ∀ l : List Node, (treeCodesList (pruneChildren l).1).Sublist (treeCodesList l) := by
  refine forestInd (List.Sublist.refl _) ?_
  intro d hijos t ih it
  rw [pruneChildren_cons, pruneNode_mk]
  simp only
  by_cases hsig : (decide (d.cantidad ≠ 0) || (pruneChildren hijos).2) = true
  · rw [if_pos hsig]
    simp only [treeCodesList, treeCodes]
    exact List.Sublist.append (List.Sublist.cons₂ _ ih) it
  · rw [if_neg hsig]
    simp only [treeCodesList, treeCodes]
    exact it.trans (List.sublist_append_right _ _)

/-- Pruning an already pruned child list changes nothing. -/
theorem pruneChildren_idem :
    ∀ l : List Node,
      pruneChildren ((pruneChildren l).1) = ((pruneChildren l).1, (pruneChildren l).2) := by
  refine forestInd rfl ?_
  intro d hijos t ih it
  rw [pruneChildren_cons, pruneNode_mk]
  simp only
  by_cases hsig : (decide (d.cantidad ≠ 0) || (pruneChildren hijos).2) = true
  · rw [if_pos hsig]
    rw [pruneChildren_cons, pruneNode_mk]
    have hsig2 : (decide (d.cantidad ≠ 0) || (pruneChildren (pruneChildren hijos).1).2)
        = true := by
      rw [pruneChildren_signal, prune_preserves_signal, ← pruneChildren_signal]
      exact hsig
    rw [ih, it]
    simp only [hsig2, if_pos, hsig]
  · rw [if_neg hsig]
    rw [it]
    have : (pruneChildren t).2 = ((decide (d.cantidad ≠ 0) || (pruneChildren hijos).2)
        || (pruneChildren t).2) := by
      rw [Bool.not_eq_true] at hsig
      rw [hsig, Bool.false_or]
    rw [← this]

/-- Pruning is idempotent at single nodes. -/
theorem pruneNode_idem (n : Node) : pruneNode ((pruneNode n).2) = pruneNode n := by
  cases n with
  | mk d hijos =>
    rw [pruneNode_mk]
    simp only
    rw [pruneNode_mk, pruneChildren_idem]

theorem renumberNode_mk (hd : NodeData) (hh : List Node) (cd : String) (depth : Nat) :
    renumberNode (Node.mk hd hh) cd depth
      = Node.mk { hd with codigo_decimal := cd } (renumberList cd depth 1 hh) := rfl

/-- The renumbering loop establishes the claimed position-code discipline,
where the root flag of the checker corresponds to parent depth zero. -/
theorem renumberList_posOk :
    ∀ (l : List Node) (parent_cd : String) (depth idx : Nat),
      posOkList (decide (depth = 0)) parent_cd idx (renumberList parent_cd depth idx l)
        = true := by
  refine forestInd ?_ ?_
  · intro pcd depth idx
    rfl
  · intro d hijos t ih it pcd depth idx
    simp only [renumberList, renumberNode_mk, posOkList, posOkNode, Node.codigo_decimal,
      Node.data]
    simp only [Bool.and_eq_true]
    refine ⟨⟨?_, ?_⟩, ?_⟩
    · by_cases h0 : depth = 0
      · simp only [h0, decide_True, if_true, beq_self_eq_true]
      · simp only [h0, decide_False, Bool.false_eq_true, if_false, beq_self_eq_true]
    · have := ih ((if depth = 0 then format02 idx else pcd ++ "." ++ format02 idx))
        (depth + 1) 1
      simp only [Nat.add_one_ne_zero, decide_False] at this
      exact this
    · exact it pcd depth (idx + 1)

/-- C4: after the Pruner runs, every remaining node other than the Root has
nonzero quantity in itself or in some descendant (the pruning invariant over
the forest of the Root children); the Root always survives with its scalar
fields untouched, even when it keeps no children; and the relative order
among surviving siblings is preserved, at the Root and at every other node,
as a sublist relation on the child codes. -/
theorem claim_C4 : ∀ r : Node,
    (prune_tree r).data = r.data
    ∧ prunedInvariantList (prune_tree r).hijos = true
    ∧ ((prune_tree r).hijos.map Node.codigo).Sublist (r.hijos.map Node.codigo)
    ∧ ∀ n : Node,
        (((pruneNode n).2.hijos.map Node.codigo).Sublist (n.hijos.map Node.codigo)) := by
  intro r
  cases r with
  | mk d hijos =>
    refine ⟨rfl, ?_, ?_, ?_⟩
    · exact pruneChildren_invariant hijos
    · exact pruneChildren_codigo_sublist hijos
    · intro n
      cases n with
      | mk d2 h2 => exact pruneChildren_codigo_sublist h2

/-- C5: after the Renumberer runs, the Root position code is the literal
token 0, each direct child of the Root carries the bare two-digit code of
its one-based sibling index, and every deeper node's position code is its
parent position code, a dot, and its two-digit one-based sibling index. -/
theorem claim_C5 : ∀ t : Node,
    (renumber_tree t).codigo_decimal = ("0") ∧ positionCodesOk (renumber_tree t) = true := by
  intro t
  cases t with
  | mk d hijos =>
    refine ⟨rfl, ?_⟩
    show ((("0" : String) == "0") && posOkList true ("0") 1 (renumberList ("0") 0 1 hijos))
      = true
    have h2 := renumberList_posOk hijos ("0") 0 1
    simp only [decide_True] at h2
    simp only [h2, beq_self_eq_true, Bool.and_true]

/-- C8: the Pruner is idempotent: pruning a pruned tree returns it
unchanged. -/
theorem claim_C8 : ∀ t : Node, prune_tree (prune_tree t) = prune_tree t := by
  intro t
  cases t with
  | mk d hijos =>
    show Node.mk d (pruneChildren (pruneChildren hijos).1).1 = Node.mk d (pruneChildren hijos).1
    rw [pruneChildren_idem]

/-- The root-candidate list realizes the parents-minus-children set. -/
theorem rootCandidates_toFinset (decomp : List (String × List (String × Rat))) :
    (rootCandidates decomp).toFinset = rootFinset decomp := by
  ext a
  simp only [rootCandidates, rootFinset, List.mem_toFinset, List.mem_filter,
    List.mem_dedup, Finset.mem_sdiff, decide_eq_true_eq]

theorem rootCandidates_nodup (decomp : List (String × List (String × Rat))) :
    (rootCandidates decomp).Nodup :=
  (List.nodup_dedup _).filter _

/-- A duplicate-free list whose element set is a singleton is that one
element. -/
theorem nodup_toFinset_singleton (l : List String) (r : String)
    (hn : l.Nodup) (h : l.toFinset = {r}) : l = [r] := by
  have hmem : ∀ a, a ∈ l ↔ a = r := by
    intro a
    rw [← List.mem_toFinset, h, Finset.mem_singleton]
  cases l with
  | nil =>
    exfalso
    have : r ∈ (∅ : Finset String) := by
      have h0 : ([] : List String).toFinset = ∅ := rfl
      rw [← h0, h]
      exact Finset.mem_singleton_self r
    exact absurd this (Finset.not_mem_empty r)
  | cons x xs =>
    have hx : x = r := (hmem x).mp (List.mem_cons_self x xs)
    have hxs : xs = [] := by
      rw [List.eq_nil_iff_forall_not_mem]
      intro b hb
      have hb2 : b = r := (hmem b).mp (List.mem_cons_of_mem x hb)
      rw [List.nodup_cons] at hn
      apply hn.1
      rw [hx, ← hb2]
      exact hb
    rw [hx, hxs]

/-- C3: the Root Resolver fails with a structural error exactly when the
parents-minus-children set of the decomposition map is empty, and whenever
that set is the singleton of one code it returns that code. -/
theorem claim_C3 (decomp : List (String × List (String × Rat))) :
    ((∃ e, detect_root_code decomp = Except.error e) ↔ rootFinset decomp = ∅)
    ∧ ∀ r, rootFinset decomp = {r} → detect_root_code decomp = Except.ok r := by
  constructor
  · constructor
    · rintro ⟨e, he⟩
      cases hrc : rootCandidates decomp with
      | nil =>
        rw [← rootCandidates_toFinset, hrc]
        rfl
      | cons r t =>
        simp only [detect_root_code, hrc] at he
        exact Except.noConfusion he
    · intro h
      have hrc : rootCandidates decomp = [] := by
        have := rootCandidates_toFinset decomp
        rw [h] at this
        exact List.toFinset_eq_empty_iff _ |>.mp this
      refine ⟨("No se ha encontrado ningún nodo raíz en las descomposiciones (~D)."), ?_⟩
      simp only [detect_root_code, hrc]
  · intro r h
    have hl : rootCandidates decomp = [r] :=
      nodup_toFinset_singleton _ _ (rootCandidates_nodup decomp)
        (by rw [rootCandidates_toFinset]; exact h)
    simp only [detect_root_code, hl]

/-- Witness for C3 at a concrete two-node decomposition whose unique root
candidate is the parent code. -/
theorem claim_C3_witness :
    detect_root_code [(("R"), [(("A"), 1)])] = Except.ok ("R") :=
  (claim_C3 [(("R"), [(("A"), 1)])]).2 ("R") (by decide)

/-- Splitting a string that contains no occurrence of the separator yields
the whole string as the single segment. -/
theorem splitChar_eq_single (sep : Char) (s : String) (h : ¬ sep ∈ s.toList) :
    splitChar sep s = [s] := by
  unfold splitChar
  have hsp : s.toList.splitOn sep = [s.toList] := by
    apply List.splitOnP_eq_single
    intro x hx hxe
    rw [beq_iff_eq] at hxe
    exact h (hxe ▸ hx)
  rw [hsp]
  rfl

/-- General getLastD over a concat with two final elements. -/
theorem getLastD_concat_two (l : List String) (a b : String) :
    (l ++ [a, b]).getLastD ("") = b := by
  have : l ++ [a, b] = (l ++ [a]) ++ [b] := by simp
  rw [this]
  exact List.getLastD_concat _ _ _

theorem getD_concat_two (l : List String) (a b : String) :
    (l ++ [a, b]).getD l.length ("") = a := by
  simp only [List.getD, List.get?_eq_getElem?]
  rw [List.getElem?_append_right (Nat.le_refl _)]
  simp

theorem filter_getLast_concat (l : List String) (a : String) (h : a ≠ ("")) :
    ((l ++ [a]).filter (fun s => s ≠ "")).getLast? = some a := by
  rw [List.filter_append]
  simp only [List.filter_cons, List.filter_nil]
  rw [if_pos (by simpa using h)]
  exact List.getLast?_concat _

/-- C7 (amended): the accumulation key for a measurement header is the last
backslash segment when that segment is non-empty (then it is the last
non-empty segment); when the last segment is empty the decoder falls back
only one step, to the second-to-last segment: that still is the last
non-empty segment when the second-to-last is non-empty, but when the final
two segments are both empty the key is the empty string, not the last
non-empty segment; a header with no separator is its own key. -/
theorem claim_C7 :
    (∀ header : String, ¬ ('\\' ∈ header.toList) → measurementKey header = header)
    ∧ (∀ (header : String) (ps : List String) (a : String),
        splitChar '\\' header = ps ++ [a] → a ≠ ("") →
        measurementKey header = a ∧ lastNonEmptySegment header = some a)
    ∧ (∀ (header : String) (ps : List String) (a : String),
        splitChar '\\' header = ps ++ [a, ("")] → a ≠ ("") →
        measurementKey header = a ∧ lastNonEmptySegment header = some a)
    ∧ (∀ (header : String) (ps : List String),
        splitChar '\\' header = ps ++ [(""), ("")] →
        measurementKey header = ("")) := by
  refine ⟨?_, ?_, ?_, ?_⟩
  · intro header h
    have hs := splitChar_eq_single '\\' header h
    by_cases h0 : header = ("")
    · simp only [measurementKey, hs, h0]
      rfl
    · simp only [measurementKey, hs]
      rw [if_pos]
      · rfl
      · simpa using h0
  · intro header ps a hs ha
    constructor
    · simp only [measurementKey, hs, List.getLastD_concat]
      rw [if_pos ha]
    · simp only [lastNonEmptySegment, hs]
      exact filter_getLast_concat ps a ha
  · intro header ps a hs ha
    constructor
    · simp only [measurementKey, hs, getLastD_concat_two]
      rw [if_neg (by simp), if_pos (by simp)]
      have hlen : (ps ++ [a, ("")]).length - 2 = ps.length := by simp
      rw [hlen]
      exact getD_concat_two ps a ("")
    · simp only [lastNonEmptySegment, hs]
      have : ps ++ [a, ("")] = (ps ++ [a]) ++ [("")] := by simp
      rw [this, List.filter_append (ps ++ [a]), List.filter_append ps]
      simp only [List.filter_cons, List.filter_nil]
      rw [if_pos (by simpa using ha), if_neg (by simp)]
      simp only [List.append_nil]
      exact List.getLast?_concat _
  · intro header ps hs
    simp only [measurementKey, hs, getLastD_concat_two]
    rw [if_neg (by simp), if_pos (by simp)]
    have hlen : (ps ++ [(""), ("")]).length - 2 = ps.length := by simp
    rw [hlen]
    exact getD_concat_two ps ("") ("")

/-- Witness for C7 at the typical two-segment header: the key is the final
segment, which is the last non-empty one. -/
theorem claim_C7_witness :
    measurementKey ("PARENT\\CHILD") = ("CHILD")
      ∧ lastNonEmptySegment ("PARENT\\CHILD") = some ("CHILD") :=
  claim_C7.2.1 ("PARENT\\CHILD") [("PARENT")] ("CHILD") (by decide) (by decide)

/-- Counterexample to C7 as stated: for the record with header consisting of
one code followed by two backslashes, the total is accumulated under the
empty-string key, although the last non-empty path segment of the header is
that code. -/
theorem claim_C7_counterexample :
    parse_measurements [("~M|A\\\\|3")] = [((""), 3)]
      ∧ lastNonEmptySegment ("A\\\\") = some ("A")
      ∧ (("") : String) ≠ ("A") := by
  refine ⟨?_, by decide, by decide⟩
  with_unfolding_all decide

theorem treeCodes_mk (d : NodeData) (hijos : List Node) :
    treeCodes (Node.mk d hijos) = d.codigo :: treeCodesList hijos := rfl

theorem treeCodesList_cons (h : Node) (t : List Node) :
    treeCodesList (h :: t) = treeCodes h ++ treeCodesList t := rfl

/-- Membership in the preorder enumeration of a forest. -/
theorem mem_nodesWithDepthList {p : Node × Nat} :
    ∀ {l : List Node} {k : Nat},
      p ∈ nodesWithDepthList l k ↔ ∃ h, h ∈ l ∧ p ∈ nodesWithDepth h k := by
  intro l k
  induction l with
  | nil => simp [nodesWithDepthList]
  | cons h t ih =>
    show p ∈ nodesWithDepth h k ++ nodesWithDepthList t k ↔ _
    rw [List.mem_append, ih]
    constructor
    · rintro (hp | ⟨h2, hm, hp⟩)
      · exact ⟨h, List.mem_cons_self h t, hp⟩
      · exact ⟨h2, List.mem_cons_of_mem h hm, hp⟩
    · rintro ⟨h2, hm, hp⟩
      rcases List.mem_cons.mp hm with rfl | hm2
      · exact Or.inl hp
      · exact Or.inr ⟨h2, hm2, hp⟩

/-- The quantity assembled by the builder is the claimed priority rule. -/
theorem builtCantidad_eq_quantityRule (ctx : Ctx) (code : String) (depth : Nat) :
    builtCantidad ctx code depth
      = quantityRule depth ((dictGet? ctx.decomp code).getD [])
          (dictGet? ctx.quantities code) := rfl

/-- The naturaleza assembled by the builder depends only on the emptiness of
the decomposition entry, because the built child list is empty whenever the
entry is. -/
theorem builtData_naturaleza (ctx : Ctx) (code : String) (depth : Nat) (cd : String)
    (hijos : List Node)
    (hnil : (dictGet? ctx.decomp code).getD [] = [] → hijos = []) :
    (builtData ctx code depth cd hijos.isEmpty).naturaleza
      = determine_naturaleza depth (!((dictGet? ctx.decomp code).getD []).isEmpty) := by
  show determine_naturaleza depth
      (!hijos.isEmpty || !((dictGet? ctx.decomp code).getD []).isEmpty) = _
  by_cases hc : (dictGet? ctx.decomp code).getD [] = []
  · rw [hnil hc, hc]
    rfl
  · have h2 : ((dictGet? ctx.decomp code).getD []).isEmpty = false := by
      cases hcc : (dictGet? ctx.decomp code).getD [] with
      | nil => exact absurd hcc hc
      | cons x xs => rfl
    rw [h2]
    simp only [Bool.not_false, Bool.or_true]

/-- The builder invariant transfers from one fuel level to the child loop
run at that same fuel. -/
theorem childSpecAt_of_nodeSpecAt (ctx : Ctx) (fuel : Nat) (H : NodeSpecAt ctx fuel) :
    ChildSpecAt ctx fuel := by
  intro cinfo
  induction cinfo with
  | nil =>
    intro depth cd idx visited hs v2 h
    rw [buildChildrenGo] at h
    simp only [Option.some.injEq, Prod.mk.injEq] at h
    obtain ⟨h1, h2⟩ := h
    subst h1
    subst h2
    refine ⟨?_, by simp [treeCodesList], ?_, fun _ => rfl, ?_⟩
    · intro c
      simp [treeCodesList]
    · intro c hc
      simp [treeCodesList] at hc
    · intro h hm
      exact absurd hm (List.not_mem_nil h)
  | cons head rest ih =>
    obtain ⟨ccode, fct⟩ := head
    intro depth cd idx visited hs v2 h
    rw [buildChildrenGo] at h
    cases hbn : buildNodeF ctx fuel ccode (depth + 1)
        (if depth = 0 then format02 idx else cd ++ "." ++ format02 idx) visited with
    | none =>
      rw [hbn] at h
      exact absurd h (by simp)
    | some pr =>
      obtain ⟨child_node, v1⟩ := pr
      rw [hbn] at h
      dsimp only [] at h
      cases hrest : buildChildrenGo (buildNodeF ctx fuel) rest depth cd (idx + 1) v1 with
      | none =>
        rw [hrest] at h
        exact absurd h (by simp)
      | some pr2 =>
        obtain ⟨others, v2x⟩ := pr2
        rw [hrest] at h
        obtain ⟨hNskip, hNv, hNnd, hNfresh, hNnode⟩ :=
          H ccode (depth + 1) _ visited child_node v1 hbn
        obtain ⟨hRv, hRnd, hRfresh, hRnil, hRnode⟩ :=
          ih depth cd (idx + 1) v1 others v2x hrest
        cases child_node with
        | none =>
          simp only [Option.some.injEq, Prod.mk.injEq] at h
          obtain ⟨h1, h2⟩ := h
          subst h1
          subst h2
          have hv1 : ∀ c, c ∈ v1 ↔ c ∈ visited := by
            intro c
            rw [hNv c]
            simp [resCodes]
          refine ⟨?_, hRnd, ?_, ?_, hRnode⟩
          · intro c
            rw [hRv c, hv1 c]
          · intro c hc hcv
            exact hRfresh c hc ((hv1 c).mpr hcv)
          · intro hx
            exact absurd hx (by simp)
        | some nd =>
          simp only [Option.some.injEq, Prod.mk.injEq] at h
          obtain ⟨h1, h2⟩ := h
          subst h1
          subst h2
          simp only [resCodes] at hNv hNnd hNfresh
          refine ⟨?_, ?_, ?_, ?_, ?_⟩
          · intro c
            rw [hRv c, treeCodesList_cons, List.mem_append, hNv c]
            tauto
          · rw [treeCodesList_cons]
            refine List.Nodup.append hNnd hRnd ?_
            intro a ha1 ha2
            exact hRfresh a ha2 ((hNv a).mpr (Or.inl ha1))
          · intro c hc
            rw [treeCodesList_cons, List.mem_append] at hc
            rcases hc with hc1 | hc2
            · exact hNfresh c hc1
            · intro hcv
              exact hRfresh c hc2 ((hNv c).mpr (Or.inr hcv))
          · intro hx
            exact absurd hx (by simp)
          · intro hn hmem p hp
            rcases List.mem_cons.mp hmem with rfl | hm2
            · exact (hNnode hn rfl).2.2 p hp
            · exact hRnode hn hm2 p hp

/-- The builder invariant holds at every fuel level. -/
theorem nodeSpecAt_all (ctx : Ctx) : ∀ fuel, NodeSpecAt ctx fuel := by
  intro fuel
  induction fuel with
  | zero =>
    intro code depth cd visited res v2 h
    rw [buildNodeF] at h
    exact absurd h (by simp)
  | succ f ihf =>
    have hch := childSpecAt_of_nodeSpecAt ctx f ihf
    intro code depth cd visited res v2 h
    rw [buildNodeF] at h
    by_cases hv : code ∈ visited
    · rw [if_pos hv] at h
      simp only [Option.some.injEq, Prod.mk.injEq] at h
      obtain ⟨h1, h2⟩ := h
      subst h1
      subst h2
      refine ⟨by simp [hv], ?_, by simp [resCodes], ?_, ?_⟩
      · intro c
        simp [resCodes]
      · intro c hc
        simp [resCodes] at hc
      · intro n hn
        exact Option.noConfusion hn
    · rw [if_neg hv] at h
      cases hgo : buildChildrenGo (buildNodeF ctx f) ((dictGet? ctx.decomp code).getD [])
          depth cd 1 (code :: visited) with
      | none =>
        rw [hgo] at h
        exact absurd h (by simp)
      | some pr =>
        obtain ⟨hijos, visited2⟩ := pr
        rw [hgo] at h
        dsimp only [] at h
        simp only [Option.some.injEq, Prod.mk.injEq] at h
        obtain ⟨h1, h2⟩ := h
        subst h1
        subst h2
        obtain ⟨hCv, hCnd, hCfresh, hCnil, hCnode⟩ :=
          hch _ depth cd 1 (code :: visited) hijos visited2 hgo
        refine ⟨by simp [hv], ?_, ?_, ?_, ?_⟩
        · intro c
          rw [hCv c]
          simp only [resCodes, treeCodes_mk, List.mem_cons]
          show (c ∈ treeCodesList hijos ∨ c = code ∨ c ∈ visited)
            ↔ (c = (builtData ctx code depth cd hijos.isEmpty).codigo
                ∨ c ∈ treeCodesList hijos) ∨ c ∈ visited
          show (c ∈ treeCodesList hijos ∨ c = code ∨ c ∈ visited)
            ↔ (c = code ∨ c ∈ treeCodesList hijos) ∨ c ∈ visited
          tauto
        · simp only [resCodes, treeCodes_mk]
          rw [List.nodup_cons]
          refine ⟨?_, hCnd⟩
          intro hmem
          exact (hCfresh _ hmem) (List.mem_cons_self _ _)
        · intro c hc
          simp only [resCodes, treeCodes_mk] at hc
          rcases List.mem_cons.mp hc with rfl | hc2
          · exact hv
          · intro hcv
            exact hCfresh c hc2 (List.mem_cons_of_mem _ hcv)
        · intro n hn
          injection hn with hn
          subst hn
          refine ⟨rfl, rfl, ?_⟩
          intro p hp
          rw [nodesWithDepth] at hp
          rcases List.mem_cons.mp hp with rfl | hp2
          · refine ⟨?_, ?_⟩
            · exact builtCantidad_eq_quantityRule ctx code depth
            · exact builtData_naturaleza ctx code depth cd hijos hCnil
          · obtain ⟨hchild, hmem2, hp3⟩ := mem_nodesWithDepthList.mp hp2
            exact hCnode hchild hmem2 p hp3

/-- Codes found in a decomposition entry lie in the child-code universe. -/
theorem mem_decompUniv (decomp : List (String × List (String × Rat))) (code : String) :
    ∀ q ∈ (dictGet? decomp code).getD [], q.1 ∈ decompUniv decomp := by
  intro q hq
  cases hf : List.find? (fun p => p.1 == code) decomp with
  | none =>
    rw [dictGet?, hf] at hq
    simp at hq
  | some pr =>
    rw [dictGet?, hf] at hq
    simp only [Option.map_some', Option.getD_some] at hq
    have hmem := List.mem_of_find?_eq_some hf
    simp only [decompUniv, List.mem_toFinset, List.mem_flatMap]
    exact ⟨pr, hmem, List.mem_map.mpr ⟨q, hq, rfl⟩⟩

/-- A code sits at the head of the preorder codes of its own node. -/
theorem codigo_mem_treeCodes (n : Node) : n.codigo ∈ treeCodes n := by
  cases n with
  | mk d hijos => exact List.mem_cons_self _ _

/-- Fuel adequacy for the child loop: with every child code inside the
universe, fuel one above the number of unvisited universe codes suffices. -/
theorem buildChildrenGo_total (ctx : Ctx) (f : Nat)
    (HN : ∀ code depth cd visited,
      (decompUniv ctx.decomp \ (code :: visited).toFinset).card + 2 ≤ f →
      ∃ r, buildNodeF ctx f code depth cd visited = some r) :
    ∀ cinfo depth cd idx visited,
      (∀ q ∈ cinfo, q.1 ∈ decompUniv ctx.decomp) →
      (decompUniv ctx.decomp \ visited.toFinset).card + 1 ≤ f →
      ∃ r, buildChildrenGo (buildNodeF ctx f) cinfo depth cd idx visited = some r := by
  intro cinfo
  induction cinfo with
  | nil =>
    intro depth cd idx visited _ _
    exact ⟨([], visited), rfl⟩
  | cons head rest ih =>
    obtain ⟨ccode, fct⟩ := head
    intro depth cd idx visited hUniv hcard
    by_cases hv : ccode ∈ visited
    · obtain ⟨f1, rfl⟩ : ∃ f1, f = f1 + 1 := ⟨f - 1, by omega⟩
      have hbn : buildNodeF ctx (f1 + 1) ccode (depth + 1)
          (if depth = 0 then format02 idx else cd ++ "." ++ format02 idx) visited
          = some (none, visited) := by
        rw [buildNodeF, if_pos hv]
      obtain ⟨⟨hs2, v22⟩, hr2⟩ := ih depth cd (idx + 1) visited
        (fun q hq => hUniv q (List.mem_cons_of_mem _ hq)) hcard
      refine ⟨(hs2, v22), ?_⟩
      rw [buildChildrenGo, hbn]
      dsimp only []
      rw [hr2]
    · have hcu : ccode ∈ decompUniv ctx.decomp := hUniv (ccode, fct) (List.mem_cons_self _ _)
      have hmemd : ccode ∈ decompUniv ctx.decomp \ visited.toFinset :=
        Finset.mem_sdiff.mpr ⟨hcu, by simpa using hv⟩
      have hpos : 0 < (decompUniv ctx.decomp \ visited.toFinset).card :=
        Finset.card_pos.mpr ⟨ccode, hmemd⟩
      have hccard : (decompUniv ctx.decomp \ (ccode :: visited).toFinset).card + 2 ≤ f := by
        rw [List.toFinset_cons, Finset.sdiff_insert, Finset.card_erase_of_mem hmemd]
        omega
      obtain ⟨⟨res, v1⟩, hbn⟩ := HN ccode (depth + 1)
        (if depth = 0 then format02 idx else cd ++ "." ++ format02 idx) visited hccard
      obtain ⟨hNskip, hNv, hNnd, hNfresh, hNnode⟩ :=
        nodeSpecAt_all ctx f ccode (depth + 1) _ visited res v1 hbn
      have hsub : visited.toFinset ⊆ v1.toFinset := by
        intro a ha
        rw [List.mem_toFinset] at ha ⊢
        exact (hNv a).mpr (Or.inr ha)
      have hcv1 : ccode ∈ v1 := by
        cases hres : res with
        | none => exact absurd (hNskip.mp hres) hv
        | some nd =>
          apply (hNv ccode).mpr
          apply Or.inl
          have hcod := (hNnode nd hres).1
          rw [hres]
          show ccode ∈ treeCodes nd
          rw [← hcod]
          exact codigo_mem_treeCodes nd
      have htail : (decompUniv ctx.decomp \ v1.toFinset).card + 1 ≤ f := by
        have hss : decompUniv ctx.decomp \ v1.toFinset
            ⊆ (decompUniv ctx.decomp \ visited.toFinset).erase ccode := by
          intro a ha
          rw [Finset.mem_sdiff] at ha
          rw [Finset.mem_erase, Finset.mem_sdiff]
          refine ⟨?_, ha.1, ?_⟩
          · rintro rfl
            exact ha.2 (List.mem_toFinset.mpr hcv1)
          · intro hav
            exact ha.2 (hsub hav)
        have hcard2 := Finset.card_le_card hss
        rw [Finset.card_erase_of_mem hmemd] at hcard2
        omega
      obtain ⟨⟨hs2, v22⟩, hr2⟩ := ih depth cd (idx + 1) v1
        (fun q hq => hUniv q (List.mem_cons_of_mem _ hq)) htail
      cases res with
      | none =>
        refine ⟨(hs2, v22), ?_⟩
        rw [buildChildrenGo, hbn]
        dsimp only []
        rw [hr2]
      | some nd =>
        refine ⟨(nd :: hs2, v22), ?_⟩
        rw [buildChildrenGo, hbn]
        dsimp only []
        rw [hr2]

/-- Fuel adequacy for the builder: two above the number of universe codes
outside the visited-plus-current set always suffices. -/
theorem buildNodeF_total (ctx : Ctx) :
    ∀ fuel code depth cd visited,
      (decompUniv ctx.decomp \ (code :: visited).toFinset).card + 2 ≤ fuel →
      ∃ r, buildNodeF ctx fuel code depth cd visited = some r := by
  intro fuel
  induction fuel with
  | zero =>
    intro code depth cd visited h
    omega
  | succ f ihf =>
    intro code depth cd visited hcard
    by_cases hv : code ∈ visited
    · exact ⟨(none, visited), by rw [buildNodeF, if_pos hv]⟩
    · have hgo : ∃ r, buildChildrenGo (buildNodeF ctx f) ((dictGet? ctx.decomp code).getD [])
          depth cd 1 (code :: visited) = some r := by
        apply buildChildrenGo_total ctx f ihf _ depth cd 1 (code :: visited)
          (mem_decompUniv ctx.decomp code)
        omega
      obtain ⟨⟨hijos, visited2⟩, hgo⟩ := hgo
      exact ⟨_, by rw [buildNodeF, if_neg hv, hgo]⟩

/-- Pruning keeps the preorder codes of a tree a sublist of the original. -/
theorem prune_tree_codes_sublist (n : Node) :
    (treeCodes (prune_tree n)).Sublist (treeCodes n) := by
  cases n with
  | mk d hijos =>
    show (d.codigo :: treeCodesList (pruneChildren hijos).1).Sublist
      (d.codigo :: treeCodesList hijos)
    exact List.Sublist.cons₂ _ (pruneChildren_treeCodes_sublist hijos)

/-- C1 (amended): in the tree builder a code is skipped, contributing no
node, precisely when it is already in the single visited set threaded
through all recursive calls at the time the call is made — a set holding
every code entered anywhere earlier in the traversal, ancestors and
completed sibling branches alike — and a successful call returns that set
extended with exactly the codes of the subtree it built, so a code built in
a completed branch is skipped later, not built again. -/
theorem claim_C1 (ctx : Ctx) (fuel : Nat) (code : String) (depth : Nat) (cd : String)
    (visited : List String) (res : Option Node) (v2 : List String)
    (h : buildNodeF ctx fuel code depth cd visited = some (res, v2)) :
    (res = none ↔ code ∈ visited)
    ∧ (∀ n, res = some n → ∀ c, c ∈ v2 ↔ c ∈ treeCodes n ∨ c ∈ visited) := by
  obtain ⟨h1, h2, _, _, _⟩ := nodeSpecAt_all ctx fuel code depth cd visited res v2 h
  refine ⟨h1, ?_⟩
  intro n hn c
  rw [h2 c, hn]
  simp only [resCodes]

/-- Witness for C1 at a call whose code is already visited: the result is
the no-node marker. -/
theorem claim_C1_witness :
    ((none : Option Node) = none ↔ ("R" : String) ∈ [("R")]) :=
  (claim_C1 cexCtx 5 ("R") 0 ("0") [("R")] none [("R")] rfl).1

/-- Counterexample to C1 as stated: on cexCtx the builder produces the X
node under A only; when it reaches B — whose ancestor path holds just R and
B, not X — the decomposition entry of B still lists X, yet B gets no child
at all, because X was already built in the completed branch of A.  The
claim as stated would demand a fresh X node under B. -/
theorem claim_C1_counterexample :
    buildNodeF cexCtx 10 ("R") 0 ("0") []
      = some (some cexTree, [("B"), ("X"), ("A"), ("R")])
    ∧ (dictGet? cexCtx.decomp ("B")).getD [] = [(("X"), 1)]
    ∧ (cexTree.hijos.getD 1 cexTree).codigo = ("B")
    ∧ (cexTree.hijos.getD 1 cexTree).hijos = [] := by
  refine ⟨?_, rfl, rfl, rfl⟩
  with_unfolding_all rfl

/-- C2: every node produced by the tree builder carries the quantity of the
priority rule: depth zero gives one, depth one gives one, depth at least
two with a nonempty decomposition entry gives one, otherwise the recorded
measurement total when present, else zero. -/
theorem claim_C2 (ctx : Ctx) (fuel : Nat) (code : String) (depth : Nat) (cd : String)
    (visited : List String) (n : Node) (v2 : List String)
    (h : buildNodeF ctx fuel code depth cd visited = some (some n, v2)) :
    ∀ p ∈ nodesWithDepth n depth,
      p.1.cantidad = quantityRule p.2 ((dictGet? ctx.decomp p.1.codigo).getD [])
        (dictGet? ctx.quantities p.1.codigo) := by
  obtain ⟨_, _, _, _, h5⟩ := nodeSpecAt_all ctx fuel code depth cd visited (some n) v2 h
  intro p hp
  exact ((h5 n rfl).2.2 p hp).1

/-- Witness for C2 at the measured leaf of the tree built on wCtx2: its
quantity is the measurement total five. -/
theorem claim_C2_witness :
    wLeaf2.cantidad = quantityRule 2 ((dictGet? wCtx2.decomp wLeaf2.codigo).getD [])
      (dictGet? wCtx2.quantities wLeaf2.codigo) :=
  claim_C2 wCtx2 10 ("R") 0 ("0") [] wTree2 [("I"), ("C"), ("R")]
    (by with_unfolding_all rfl) (wLeaf2, 2)
    (List.Mem.tail _ (List.Mem.tail _ (List.Mem.head _)))

/-- C6: in a tree built from depth zero, the depth-zero node has naturaleza
Root; every deeper node with a nonempty decomposition entry is a Chapter at
depth one and a Subchapter at depth at least two; every deeper node with an
empty entry is a LineItem. -/
theorem claim_C6 (ctx : Ctx) (fuel : Nat) (code : String) (cd : String)
    (visited : List String) (n : Node) (v2 : List String)
    (h : buildNodeF ctx fuel code 0 cd visited = some (some n, v2)) :
    ∀ p ∈ nodesWithDepth n 0,
      (p.2 = 0 → p.1.naturaleza = 0)
      ∧ (1 ≤ p.2 →
          ((dictGet? ctx.decomp p.1.codigo).getD [] ≠ [] →
            p.1.naturaleza = if p.2 = 1 then 1 else 2)
          ∧ ((dictGet? ctx.decomp p.1.codigo).getD [] = [] → p.1.naturaleza = 3)) := by
  obtain ⟨_, _, _, _, h5⟩ := nodeSpecAt_all ctx fuel code 0 cd visited (some n) v2 h
  intro p hp
  have hn := ((h5 n rfl).2.2 p hp).2
  constructor
  · intro h0
    rw [hn, h0]
    rfl
  · intro h1
    constructor
    · intro hne
      rw [hn]
      have he : ((dictGet? ctx.decomp p.1.codigo).getD []).isEmpty = false := by
        cases hcc : (dictGet? ctx.decomp p.1.codigo).getD [] with
        | nil => exact absurd hcc hne
        | cons x xs => rfl
      rw [he]
      unfold determine_naturaleza
      rw [if_neg (by omega), if_neg (by simp)]
    · intro heq
      rw [hn, heq]
      unfold determine_naturaleza
      rw [if_neg (by omega), if_pos (by simp)]

/-- Witness for C6 at the depth-one chapter of the tree built on wCtx2. -/
theorem claim_C6_witness :
    wChild2.naturaleza = if (1 : Nat) = 1 then 1 else 2 :=
  ((claim_C6 wCtx2 10 ("R") ("0") [] wTree2 [("I"), ("C"), ("R")]
      (by with_unfolding_all rfl) (wChild2, 1)
      (List.Mem.tail _ (List.Mem.head _))).2 (by omega)).1 (by decide)

/-- C9: the builder terminates on every input: fuel two above the size of
the child-code universe of the decomposition map always yields a result,
cyclic maps included, and a call on a code already in the visited set —
in particular a decomposition entry naming an ancestor of the current
recursion path — immediately yields no node with the visited set
unchanged. -/
theorem claim_C9 (ctx : Ctx) (code : String) (depth : Nat) (cd : String)
    (visited : List String) :
    (∃ r, buildNodeF ctx ((decompUniv ctx.decomp).card + 2) code depth cd visited = some r)
    ∧ (code ∈ visited →
        buildNodeF ctx ((decompUniv ctx.decomp).card + 2) code depth cd visited
          = some (none, visited)) := by
  constructor
  · apply buildNodeF_total
    have hle : (decompUniv ctx.decomp \ (code :: visited).toFinset).card
        ≤ (decompUniv ctx.decomp).card := Finset.card_le_card Finset.sdiff_subset
    omega
  · intro hv
    show buildNodeF ctx ((decompUniv ctx.decomp).card + 1 + 1) code depth cd visited = _
    rw [buildNodeF, if_pos hv]

/-- Witness for C9: on the self-cyclic decomposition context the builder
run on an already-visited code returns the no-node marker. -/
theorem claim_C9_witness :
    buildNodeF cexCtx ((decompUniv cexCtx.decomp).card + 2) ("R") 0 ("0") [("R")]
      = some (none, [("R")]) :=
  (claim_C9 cexCtx ("R") 0 ("0") [("R")]).2 (List.mem_cons_self _ _)

/-- C10: started on the empty visited set, as the pipeline starts it, the
builder produces a tree in which each concept code labels at most one node
of the whole tree — not merely once per root-to-leaf path — and the pruned
tree keeps that property. -/
theorem claim_C10 (ctx : Ctx) (fuel : Nat) (code : String) (depth : Nat) (cd : String)
    (n : Node) (v2 : List String)
    (h : buildNodeF ctx fuel code depth cd [] = some (some n, v2)) :
    (treeCodes n).Nodup ∧ (treeCodes (prune_tree n)).Nodup := by
  obtain ⟨_, _, h3, _, _⟩ := nodeSpecAt_all ctx fuel code depth cd [] (some n) v2 h
  have hnd : (treeCodes n).Nodup := h3
  exact ⟨hnd, hnd.sublist (prune_tree_codes_sublist n)⟩

/-- Witness for C10 on the shared-child context: the built tree carries
each of R, A, X, B once, before and after pruning. -/
theorem claim_C10_witness :
    (treeCodes cexTree).Nodup ∧ (treeCodes (prune_tree cexTree)).Nodup :=
  claim_C10 cexCtx 10 ("R") 0 ("0") cexTree [("B"), ("X"), ("A"), ("R")]
    (by with_unfolding_all rfl)

end BC3
